import Mathlib

/-!
Shallow embedding of `src/strategy.py` (class `Struct_Prune_Aggregation`),
the weighted structural-pruning consensus strategy of this repository.

Python strings are embedded as lists of characters, numpy tensors as lists of
rational channel slices (only the output-channel axis, `shape[0]`, matters to
the aggregation logic), and a Python exception escaping `aggregate_fit`
(`KeyError` from a dict lookup, `IndexError` from list indexing) is embedded
as an `Option`/outcome value `none`/`error`.
-/

namespace DynFedPrune

/-- Characters of a Python string (state-dict keys, JSON metric keys). -/
abbrev Str := List Char

/-- One parameter tensor, abstracted to its output-channel axis: entry `i`
stands for the whole channel-`i` slice, so the list length is `shape[0]`. -/
abbrev Tensor := List ℚ

/-- The value of `parameters_to_ndarrays`: a list of tensors. -/
abbrev NDArrays := List Tensor

/-- Serialized `flwr.common.Parameters`. -/
structure Parameters where
  tensors : NDArrays
deriving DecidableEq

/-- Deserialization `flwr.common.parameters_to_ndarrays`. -/
def parameters_to_ndarrays (p : Parameters) : NDArrays := p.tensors

/-- Serialization `flwr.common.ndarrays_to_parameters`. -/
def ndarrays_to_parameters (a : NDArrays) : Parameters := ⟨a⟩

/-- A client's decoded `prune_indices` JSON object: a dictionary from metric
key (such as `layer1.0.conv1.out`) to the proposed channel indices. -/
abbrev Proposal := List (Str × List ℤ)

/-- An aggregated-metrics dictionary (`Dict[str, Scalar]`). -/
abbrev Metrics := List (Str × ℚ)

/-- The fields of `flwr.common.FitRes` that `aggregate_fit` reads.
`pruneIndices` is the decoded `metrics['prune_indices']` payload; it is
`none` when the metric is absent (looking it up raises `KeyError`). -/
structure FitRes where
  parameters : Parameters
  numExamples : ℕ
  pruneIndices : Option Proposal
deriving DecidableEq

/-- Python `key.split('.')`. -/
def splitOnDot : Str → List Str
  | [] => [[]]
  | c :: rest =>
      let r := splitOnDot rest
      if c = '.' then [] :: r else (c :: r.headD []) :: r.tail

/-- Python `l[-2]`, as an `Option` (`none` embeds the `IndexError` raised
when the list has fewer than two elements). -/
def penultimate (l : List α) : Option α := l.dropLast.getLast?

/-- Python `re.match("^conv[1-2]+$", s)` as a Boolean: the string is `conv`
followed by one or more characters drawn from `1`, `2`. -/
def isConvKey : Str → Bool
  | 'c' :: 'o' :: 'n' :: 'v' :: rest =>
      !rest.isEmpty && rest.all (fun c => c == '1' || c == '2')
  | _ => false

/-- Python `key[:-1*len(key_list[-1])] + "out"`: strip the final dotted
component (keeping the trailing dot) and append `out`.  When the final
component is empty, `key[:-0]` is the empty string. -/
def metricKeyOf (key : Str) : Str :=
  let lastLen := ((splitOnDot key).getLastD []).length
  (if lastLen = 0 then [] else key.take (key.length - lastLen)) ++ ['o', 'u', 't']

/-- Python dict lookup `d[k]` on a decoded JSON object; `none` embeds the
`KeyError` raised when the key is absent. -/
def dictLookup (k : Str) : Proposal → Option (List ℤ)
  | [] => none
  | kv :: rest => if kv.1 = k then some kv.2 else dictLookup k rest

/-- One channel's `channel_cardinality` over the listed clients: for each
client, look up its proposal under `key` (a missing entry raises, embedded as
`none`) and add the client's example count when `channelIdx` occurs among the
proposed indices. -/
def collectVotes (key : Str) (channelIdx : ℕ) : List (Proposal × ℕ) → Option ℕ
  | [] => some 0
  | c :: rest =>
      match dictLookup key c.1 with
      | none => none
      | some pruneIds =>
          (collectVotes key channelIdx rest).map
            (fun t => (if (channelIdx : ℤ) ∈ pruneIds then c.2 else 0) + t)

/-- The `cardinalities` accumulated for each channel index listed in `idxs`. -/
def talliesOf (key : Str) (clients : List (Proposal × ℕ)) : List ℕ → Option (List ℕ)
  | [] => some []
  | i :: rest =>
      match collectVotes key i clients with
      | none => none
      | some t => (talliesOf key clients rest).map (t :: ·)

/-- The `cardinalities` list for a layer with `numChannels` output channels:
channel indices run over `range(num_channels)`. -/
def layerTallies (key : Str) (numChannels : ℕ)
    (clients : List (Proposal × ℕ)) : Option (List ℕ) :=
  talliesOf key clients (List.range numChannels)

/-- The layer's prune decision: the channel indices whose tally satisfies
`x >= self.aggregate_frac * tot_examples` (an inclusive threshold). -/
def layerDecision (frac : ℚ) (tot : ℕ) (tallies : List ℕ) : List ℕ :=
  (tallies.enum.filter (fun p => decide (frac * (tot : ℚ) ≤ (p.2 : ℚ)))).map Prod.fst

/-- The `for index, key in enumerate(model_dict)` loop of `aggregate_fit`:
walk the state-dict keys with a running index and, for each key whose
second-to-last dotted component matches `^conv[1-2]+$`, compute the layer's
tallies from `server_parameters[index]` and append its threshold decision. -/
def pruneIdsLoop (serverParams : NDArrays) (clients : List (Proposal × ℕ))
    (frac : ℚ) (tot : ℕ) : ℕ → List Str → Option (List (List ℕ))
  | _, [] => some []
  | index, key :: rest =>
      match penultimate (splitOnDot key) with
      | none => none
      | some comp =>
          if isConvKey comp then
            match serverParams[index]? with
            | none => none
            | some tensor =>
                match layerTallies (metricKeyOf key) tensor.length clients with
                | none => none
                | some tallies =>
                    (pruneIdsLoop serverParams clients frac tot (index + 1) rest).map
                      (layerDecision frac tot tallies :: ·)
          else pruneIdsLoop serverParams clients frac tot (index + 1) rest

/-- The `server_prune_ids` value produced by the layer loop over the whole
state dict. -/
def serverPruneIdsOf (net : List Str) (serverParams : NDArrays)
    (clients : List (Proposal × ℕ)) (frac : ℚ) (tot : ℕ) : Option (List (List ℕ)) :=
  pruneIdsLoop serverParams clients frac tot 0 net

/-- The strategy object `Struct_Prune_Aggregation`, restricted to the fields
`configure_fit` and `aggregate_fit` use.  `acceptFailures` and
`fitMetricsAggregationFn` are inherited from `FedAvg`; `aggregateFrac` is the
constant `0.3`; `serverNet` is the list of state-dict keys of
`ResNet18(num_classes=10)`. -/
structure Strategy where
  centralParameters : Parameters
  acceptFailures : Bool
  aggregateFrac : ℚ
  fitMetricsAggregationFn : Option (List (ℕ × Option Proposal) → Metrics)
  serverNet : List Str

/-- The observable outcome of one `aggregate_fit` call. -/
inductive AggOutcome where
  /-- An uncaught exception (`KeyError` or `IndexError`) escaped the call. -/
  | error : AggOutcome
  /-- A normal return `(parameters?, metrics)`; the Boolean records whether
  the missing-aggregation-function warning was logged during the call. -/
  | ok : Option NDArrays → Metrics → Bool → AggOutcome
deriving DecidableEq

/-- Python `tot_examples = np.sum(num_examples)`. -/
def totExamplesOf (results : List FitRes) : ℕ :=
  (results.map (·.numExamples)).sum

/-- The `client_metrics` comprehension paired with `num_examples`: each
client's decoded `prune_indices` dictionary (a missing metric raises
`KeyError`, embedded as `none`) together with that client's example count
(the tally loop reads `num_examples[client_idx]`, the entry at the same
position). -/
def extractMetrics : List FitRes → Option (List (Proposal × ℕ))
  | [] => some []
  | res :: rest =>
      match res.pruneIndices with
      | none => none
      | some m => (extractMetrics rest).map ((m, res.numExamples) :: ·)

/-- The `server_prune_ids` computed by `aggregate_fit` from the round's
results and the strategy's own state. -/
def roundPruneIds (s : Strategy) (results : List FitRes) : Option (List (List ℕ)) :=
  match extractMetrics results with
  | none => none
  | some clients =>
      serverPruneIdsOf s.serverNet (parameters_to_ndarrays s.centralParameters)
        clients s.aggregateFrac (totExamplesOf results)

/-- Method `aggregate_fit` of `Struct_Prune_Aggregation`.  The returned
`Strategy` is the post-call object state: the method never reassigns
`self.central_parameters` (the call to `prune_model_with_indices` mutates
only the server net's modules, which leaves the state-dict key list
unchanged).  Note that the final `return server_parameters, ...` hands back
the deserialized pre-aggregation parameters, not a pruned tensor set. -/
def aggregate_fit (s : Strategy) (serverRound : ℕ) (results : List FitRes)
    (failures : List Unit) : Strategy × AggOutcome :=
  if results = [] then (s, .ok none [] false)
  else if s.acceptFailures = false ∧ failures ≠ [] then (s, .ok none [] false)
  else
    match roundPruneIds s results with
    | none => (s, .error)
    | some _finalIds =>
        let serverParameters := parameters_to_ndarrays s.centralParameters
        match s.fitMetricsAggregationFn with
        | some fn =>
            (s, .ok (some serverParameters)
              (fn (results.map (fun res => (res.numExamples, res.pruneIndices)))) false)
        | none => (s, .ok (some serverParameters) [] (serverRound == 1))

/-- Method `configure_fit`, restricted to its effect on the strategy state and
the parameters it broadcasts: it stores the incoming parameters in
`self.central_parameters` and bundles the same parameters into every
client's `FitIns`. -/
def configure_fit (s : Strategy) (_serverRound : ℕ) (parameters : Parameters) :
    Strategy × Parameters :=
  ({ s with centralParameters := parameters }, parameters)

/-- Modelled from the spec: the repository imports `prune_model_with_indices`
from a module `prune` whose source is not included.  The Structural Pruner
contract states that applying a layer's decision removes the selected channel
indices from the layer's output dimension, surviving channels keeping their
relative order. -/
def pruneTensor (decision : List ℕ) (tensor : Tensor) : Tensor :=
  (tensor.enum.filter (fun p => !decision.contains p.1)).map (·.2)

/-! ### Helper lemmas about the tally pipeline -/

/-- The weight a single client contributes to channel `i` of the layer keyed
by `key`, read off its proposal dictionary. -/
def voteOf (key : Str) (i : ℕ) (c : Proposal × ℕ) : ℕ :=
  if (i : ℤ) ∈ ((dictLookup key c.1).getD []) then c.2 else 0

theorem collectVotes_eq (key : Str) (i : ℕ) (cs : List (Proposal × ℕ)) :
    collectVotes key i cs =
      if ∀ c ∈ cs, (dictLookup key c.1).isSome
      then some ((cs.map (voteOf key i)).sum) else none := by
  induction cs with
  | nil => simp [collectVotes]
  | cons c cs ih =>
      cases h : dictLookup key c.1 with
      | none => simp [collectVotes, h, List.forall_mem_cons]
      | some ids =>
          by_cases hall : ∀ x ∈ cs, (dictLookup key x.1).isSome
          · have hcons : ∀ x ∈ c :: cs, (dictLookup key x.1).isSome :=
              List.forall_mem_cons.mpr ⟨by simp [h], hall⟩
            simp only [collectVotes, h, ih]
            rw [if_pos hall, if_pos hcons]
            simp [voteOf, h]
          · have hcons : ¬ ∀ x ∈ c :: cs, (dictLookup key x.1).isSome :=
              fun H => hall (fun x hx => H x (List.mem_cons_of_mem _ hx))
            simp only [collectVotes, h, ih]
            rw [if_neg hall, if_neg hcons]
            simp

theorem collectVotes_perm (key : Str) (i : ℕ) {cs cs' : List (Proposal × ℕ)}
    (h : cs.Perm cs') : collectVotes key i cs = collectVotes key i cs' := by
  rw [collectVotes_eq, collectVotes_eq]
  have hmem : (∀ c ∈ cs, (dictLookup key c.1).isSome) ↔
      (∀ c ∈ cs', (dictLookup key c.1).isSome) :=
    ⟨fun H c hc => H c (h.mem_iff.mpr hc), fun H c hc => H c (h.mem_iff.mp hc)⟩
  have hsum : (cs.map (voteOf key i)).sum = (cs'.map (voteOf key i)).sum :=
    (h.map (voteOf key i)).sum_eq
  by_cases hc : ∀ c ∈ cs, (dictLookup key c.1).isSome
  · rw [if_pos hc, if_pos (hmem.mp hc), hsum]
  · rw [if_neg hc, if_neg (fun H => hc (hmem.mpr H))]

theorem talliesOf_congr (key : Str) {cs cs' : List (Proposal × ℕ)}
    (h : ∀ i, collectVotes key i cs = collectVotes key i cs')
    (l : List ℕ) : talliesOf key cs l = talliesOf key cs' l := by
  induction l with
  | nil => rfl
  | cons i l ih => rw [talliesOf, talliesOf, h i, ih]

theorem layerTallies_perm (key : Str) (n : ℕ) {cs cs' : List (Proposal × ℕ)}
    (h : cs.Perm cs') : layerTallies key n cs = layerTallies key n cs' :=
  talliesOf_congr key (fun i => collectVotes_perm key i h) _

theorem talliesOf_length {key : Str} {cs : List (Proposal × ℕ)} :
    ∀ {l : List ℕ} {t : List ℕ}, talliesOf key cs l = some t → t.length = l.length := by
  intro l
  induction l with
  | nil => intro t ht; simp [talliesOf] at ht; simp [← ht]
  | cons i l ih =>
      intro t ht
      rw [talliesOf] at ht
      cases h : collectVotes key i cs with
      | none => rw [h] at ht; exact absurd ht (by simp)
      | some v =>
          rw [h] at ht
          cases h' : talliesOf key cs l with
          | none => rw [h'] at ht; exact absurd ht (by simp)
          | some t' =>
              rw [h'] at ht
              simp only [Option.map_some', Option.some.injEq] at ht
              subst ht
              simp [ih h']

theorem layerTallies_length {key : Str} {n : ℕ} {cs : List (Proposal × ℕ)}
    {t : List ℕ} (h : layerTallies key n cs = some t) : t.length = n := by
  have h2 : t.length = (List.range n).length := talliesOf_length h
  simpa using h2

theorem mem_layerDecision {frac : ℚ} {tot : ℕ} {tallies : List ℕ} {i : ℕ} :
    i ∈ layerDecision frac tot tallies ↔
      ∃ x, tallies[i]? = some x ∧ frac * (tot : ℚ) ≤ (x : ℚ) := by
  simp only [layerDecision, List.mem_map, List.mem_filter, decide_eq_true_eq]
  constructor
  · rintro ⟨⟨j, x⟩, ⟨hmem, hle⟩, rfl⟩
    exact ⟨x, List.mk_mem_enum_iff_getElem?.mp hmem, hle⟩
  · rintro ⟨x, hx, hle⟩
    exact ⟨(i, x), ⟨List.mk_mem_enum_iff_getElem?.mpr hx, hle⟩, rfl⟩

/-! ### Concrete fixtures

The scenario of the spec's section 8: one prunable layer
(`layerX.conv1.weight`, eight output channels, metric key
`layerX.conv1.out`), three clients with weights 10, 20, 70 (total 100) and
fraction `0.3` (threshold 30).  Channel 5 gathers tally 80 and channel 6
tally 10, so the decision is exactly `[5]`. -/

def kW₁ : Str := "layerX.conv1.weight".toList

def kM₁ : Str := "layerX.conv1.out".toList

def tensor₁ : Tensor := [1, 2, 3, 4, 5, 6, 7, 8]

def params₁ : Parameters := ⟨[tensor₁]⟩

def s₁ : Strategy :=
  { centralParameters := params₁
    acceptFailures := true
    aggregateFrac := 3/10
    fitMetricsAggregationFn := none
    serverNet := [kW₁] }

def resA : FitRes := ⟨⟨[[0]]⟩, 10, some [(kM₁, [5, 6])]⟩

def resB : FitRes := ⟨⟨[[0]]⟩, 20, some [(kM₁, [])]⟩

def resC : FitRes := ⟨⟨[[0]]⟩, 70, some [(kM₁, [5])]⟩

def results₁ : List FitRes := [resA, resB, resC]

/-- Two clients for the threshold-boundary witness: with `tot = 100` and
fraction `3/10`, channel 0 sits exactly at the threshold (tally 30) and
channel 1 one unit below it (tally 29). -/
def clientsW : List (Proposal × ℕ) := [([(kM₁, [0])], 30), ([(kM₁, [1])], 29)]

theorem extractMetrics_eq (rs : List FitRes) :
    extractMetrics rs =
      if ∀ r ∈ rs, r.pruneIndices.isSome
      then some (rs.map (fun r => (r.pruneIndices.getD [], r.numExamples)))
      else none := by
  induction rs with
  | nil => simp [extractMetrics]
  | cons r rs ih =>
      cases h : r.pruneIndices with
      | none =>
          have hcons : ¬ ∀ x ∈ r :: rs, x.pruneIndices.isSome := by
            intro H
            have hr := H r (List.mem_cons_self _ _)
            rw [h] at hr
            simp at hr
          simp [extractMetrics, h, hcons]
      | some m =>
          by_cases hall : ∀ x ∈ rs, x.pruneIndices.isSome
          · have hcons : ∀ x ∈ r :: rs, x.pruneIndices.isSome :=
              List.forall_mem_cons.mpr ⟨by simp [h], hall⟩
            simp only [extractMetrics, h, ih]
            rw [if_pos hall, if_pos hcons]
            simp [h]
          · have hcons : ¬ ∀ x ∈ r :: rs, x.pruneIndices.isSome :=
              fun H => hall fun x hx => H x (List.mem_cons_of_mem _ hx)
            simp only [extractMetrics, h, ih]
            rw [if_neg hall, if_neg hcons]
            simp

theorem pruneIdsLoop_congr (P : NDArrays) {cs cs' : List (Proposal × ℕ)}
    (h : ∀ key n, layerTallies key n cs = layerTallies key n cs')
    (frac : ℚ) (tot : ℕ) : ∀ (idx : ℕ) (keys : List Str),
    pruneIdsLoop P cs frac tot idx keys = pruneIdsLoop P cs' frac tot idx keys := by
  intro idx keys
  induction keys generalizing idx with
  | nil => rfl
  | cons key rest ih =>
      cases hp : penultimate (splitOnDot key) with
      | none => simp [pruneIdsLoop, hp]
      | some comp =>
          by_cases hc : isConvKey comp
          · cases hP : P[idx]? with
            | none => simp [pruneIdsLoop, hp, hc, hP]
            | some tensor =>
                simp [pruneIdsLoop, hp, hc, hP, h (metricKeyOf key) tensor.length, ih]
          · simp [pruneIdsLoop, hp, hc, ih]

/-- C6: for every list of client results and every permutation of it,
`aggregate_fit` computes the same per-layer channel tallies (first conjunct,
for any layer key and channel count) and the same per-layer prune decisions
`server_prune_ids` (second conjunct): the aggregation is order-independent
in the client results, since tallying only adds the clients' weights. -/
theorem c6_order_independence (s : Strategy) (results results' : List FitRes)
    (h : results.Perm results') :
    (∀ key n,
        Option.bind (extractMetrics results) (fun cs => layerTallies key n cs) =
        Option.bind (extractMetrics results') (fun cs => layerTallies key n cs)) ∧
      roundPruneIds s results = roundPruneIds s results' := by
  have hcond : (∀ r ∈ results, r.pruneIndices.isSome) ↔
      (∀ r ∈ results', r.pruneIndices.isSome) :=
    ⟨fun H r hr => H r (h.mem_iff.mpr hr), fun H r hr => H r (h.mem_iff.mp hr)⟩
  by_cases hall : ∀ r ∈ results, r.pruneIndices.isSome
  · have hall' : ∀ r ∈ results', r.pruneIndices.isSome := hcond.mp hall
    have h1 : extractMetrics results =
        some (results.map (fun r => (r.pruneIndices.getD [], r.numExamples))) := by
      rw [extractMetrics_eq, if_pos hall]
    have h2 : extractMetrics results' =
        some (results'.map (fun r => (r.pruneIndices.getD [], r.numExamples))) := by
      rw [extractMetrics_eq, if_pos hall']
    have hperm := h.map (fun r => (r.pruneIndices.getD [], r.numExamples))
    have htal : ∀ key n,
        layerTallies key n (results.map (fun r => (r.pruneIndices.getD [], r.numExamples))) =
        layerTallies key n (results'.map (fun r => (r.pruneIndices.getD [], r.numExamples))) :=
      fun key n => layerTallies_perm key n hperm
    have htot : totExamplesOf results = totExamplesOf results' := by
      unfold totExamplesOf
      exact (h.map _).sum_eq
    refine ⟨fun key n => by rw [h1, h2]; simpa using htal key n, ?_⟩
    simp only [roundPruneIds, h1, h2, serverPruneIdsOf, htot]
    exact pruneIdsLoop_congr _ htal _ _ _ _
  · have hall' : ¬ ∀ r ∈ results', r.pruneIndices.isSome :=
      fun H => hall (hcond.mpr H)
    have h1 : extractMetrics results = none := by rw [extractMetrics_eq, if_neg hall]
    have h2 : extractMetrics results' = none := by rw [extractMetrics_eq, if_neg hall']
    refine ⟨fun key n => by rw [h1, h2], ?_⟩
    simp [roundPruneIds, h1, h2]

/-- A reordering of the three concrete client results. -/
def results₁p : List FitRes := [resC, resA, resB]

/-- Witness for C6: permuting the three concrete client results leaves the
round's prune decisions unchanged. -/
theorem c6_order_independence_witness :
    roundPruneIds s₁ results₁ = roundPruneIds s₁ results₁p :=
  (c6_order_independence s₁ results₁ results₁p (by decide)).2

theorem dictLookup_mem {key : Str} {m : Proposal} {v : List ℤ}
    (h : dictLookup key m = some v) : ∃ kv ∈ m, kv.2 = v := by
  induction m with
  | nil => simp [dictLookup] at h
  | cons kv m ih =>
      rw [dictLookup] at h
      by_cases hk : kv.1 = key
      · rw [if_pos hk] at h
        cases h
        exact ⟨kv, List.mem_cons_self _ _, rfl⟩
      · rw [if_neg hk] at h
        rcases ih h with ⟨kv', h1, h2⟩
        exact ⟨kv', List.mem_cons_of_mem _ h1, h2⟩

theorem extractMetrics_append (rs : List FitRes) (z : FitRes) (m : Proposal)
    (hz : z.pruneIndices = some m) :
    extractMetrics (rs ++ [z]) =
      (extractMetrics rs).map (· ++ [(m, z.numExamples)]) := by
  induction rs with
  | nil => simp [extractMetrics, hz]
  | cons r rs ih =>
      cases h : r.pruneIndices with
      | none => simp [extractMetrics, h]
      | some mm =>
          have step1 : extractMetrics ((r :: rs) ++ [z]) =
              (extractMetrics (rs ++ [z])).map ((mm, r.numExamples) :: ·) := by
            simp [extractMetrics, h]
          have step2 : extractMetrics (r :: rs) =
              (extractMetrics rs).map ((mm, r.numExamples) :: ·) := by
            simp [extractMetrics, h]
          rw [step1, ih, step2, Option.map_map, Option.map_map]
          have hfe : ((fun x => (mm, r.numExamples) :: x) ∘ fun x => x ++ [(m, z.numExamples)]) =
              ((fun x => x ++ [(m, z.numExamples)]) ∘ fun x => ((mm, r.numExamples) :: x : List (Proposal × ℕ))) := by
            funext cs
            simp
          rw [hfe]

theorem collectVotes_append_zero (key : Str) (i : ℕ) (cs : List (Proposal × ℕ))
    (m : Proposal) (w : ℕ) (hm : dictLookup key m = some []) :
    collectVotes key i (cs ++ [(m, w)]) = collectVotes key i cs := by
  induction cs with
  | nil => simp [collectVotes, hm]
  | cons c cs ih =>
      cases h : dictLookup key c.1 with
      | none => simp [collectVotes, h]
      | some ids => simp [collectVotes, h, ih]

/-- C7: the threshold denominator `tot_examples` is the sum of all
participating clients' example counts (first conjunct: appending one more
participating client adds its weight to the denominator), including clients
that proposed zero channel indices for every layer: such a client changes no
layer tally (second conjunct), yet still enlarges the denominator. -/
theorem c7_total_weight_includes_zero_proposal_clients
    (results : List FitRes) (z : FitRes) (m : Proposal)
    (hz : z.pruneIndices = some m) (hm : ∀ kv ∈ m, kv.2 = ([] : List ℤ)) :
    totExamplesOf (results ++ [z]) = totExamplesOf results + z.numExamples ∧
      ∀ key n, (dictLookup key m).isSome →
        Option.bind (extractMetrics (results ++ [z])) (fun cs => layerTallies key n cs) =
        Option.bind (extractMetrics results) (fun cs => layerTallies key n cs) := by
  constructor
  · simp [totExamplesOf]
  · intro key n hk
    have hlk : dictLookup key m = some [] := by
      cases h : dictLookup key m with
      | none => rw [h] at hk; simp at hk
      | some v =>
          rcases dictLookup_mem h with ⟨kv, hmem, hv⟩
          rw [← hv, hm kv hmem]
    rw [extractMetrics_append results z m hz]
    cases he : extractMetrics results with
    | none => simp
    | some cs =>
        simp only [Option.map_some', Option.some_bind]
        exact talliesOf_congr key
          (fun i => collectVotes_append_zero key i cs m z.numExamples hlk) _

/-- A participating client that proposes zero channel indices for the layer. -/
def resZ : FitRes := ⟨⟨[[0]]⟩, 40, some [(kM₁, [])]⟩

/-- Witness for C7: adding the zero-proposal client to the concrete round
adds its 40 examples to the denominator while leaving the layer's tallies
unchanged. -/
theorem c7_total_weight_witness :
    totExamplesOf (results₁ ++ [resZ]) = totExamplesOf results₁ + resZ.numExamples ∧
      Option.bind (extractMetrics (results₁ ++ [resZ]))
          (fun cs => layerTallies kM₁ 8 cs) =
        Option.bind (extractMetrics results₁) (fun cs => layerTallies kM₁ 8 cs) :=
  ⟨(c7_total_weight_includes_zero_proposal_clients results₁ resZ [(kM₁, [])]
      rfl (by decide)).1,
    (c7_total_weight_includes_zero_proposal_clients results₁ resZ [(kM₁, [])]
      rfl (by decide)).2 kM₁ 8 (by decide)⟩

/-! ### Claim theorems -/

/-- C2: for every prunable layer (keyed by `key`, with `numChannels` output
channels), every channel index, every list of client proposals with weights,
and the configured fraction with total participating weight `tot`: the
channel index is included in the layer's prune decision iff its accumulated
tally is greater than or equal to `frac * tot`.  The comparison is the
source's inclusive `x >= self.aggregate_frac * tot_examples`, so a tally
exactly at the threshold is included and any tally strictly below it is
excluded. -/
theorem c2_threshold_inclusive (key : Str) (numChannels : ℕ)
    (clients : List (Proposal × ℕ)) (frac : ℚ) (tot : ℕ) (tallies : List ℕ)
    (ht : layerTallies key numChannels clients = some tallies)
    (i : ℕ) (hi : i < numChannels) :
    i ∈ layerDecision frac tot tallies ↔
      frac * (tot : ℚ) ≤ (tallies.getD i 0 : ℚ) := by
  have hlen : tallies.length = numChannels := layerTallies_length ht
  have hget : tallies[i]? = some (tallies.getD i 0) := by
    rw [List.getD_eq_getElem?_getD]
    cases h : tallies[i]? with
    | none =>
        rw [List.getElem?_eq_none_iff] at h
        omega
    | some v => rfl
  rw [mem_layerDecision]
  constructor
  · rintro ⟨x, hx, hle⟩
    rw [hget] at hx
    cases hx
    exact hle
  · intro hle
    exact ⟨_, hget, hle⟩

/-- Witness for C2: in the boundary scenario (`tot = 100`, fraction `3/10`,
tallies `[30, 29]`) channel 0, whose tally equals the threshold exactly, is
included, and channel 1, one unit below, is excluded. -/
theorem c2_threshold_inclusive_witness :
    0 ∈ layerDecision (3/10) 100 [30, 29] ∧
      1 ∉ layerDecision (3/10) 100 [30, 29] := by
  constructor
  · exact (c2_threshold_inclusive kM₁ 2 clientsW (3/10) 100 [30, 29]
      (by decide) 0 (by decide)).mpr (by norm_num)
  · intro hmem
    have h := (c2_threshold_inclusive kM₁ 2 clientsW (3/10) 100 [30, 29]
      (by decide) 1 (by decide)).mp hmem
    norm_num at h

/-- C8: for every prunable layer and every input, the prune decision contains
only indices within the layer's current channel count and contains no
duplicate indices. -/
theorem c8_decision_in_range_and_nodup (key : Str) (numChannels : ℕ)
    (clients : List (Proposal × ℕ)) (frac : ℚ) (tot : ℕ) (tallies : List ℕ)
    (ht : layerTallies key numChannels clients = some tallies) :
    (∀ i ∈ layerDecision frac tot tallies, i < numChannels) ∧
      (layerDecision frac tot tallies).Nodup := by
  have hlen : tallies.length = numChannels := layerTallies_length ht
  constructor
  · intro i hi
    rcases mem_layerDecision.mp hi with ⟨x, hx, -⟩
    have hlt : i < tallies.length := by
      by_contra hcon
      rw [List.getElem?_eq_none_iff.mpr (by omega)] at hx
      exact Option.noConfusion hx
    omega
  · have hsub : ((tallies.enum.filter
        (fun p => decide (frac * (tot : ℚ) ≤ (p.2 : ℚ)))).map Prod.fst).Sublist
          (tallies.enum.map Prod.fst) :=
      (List.filter_sublist _).map Prod.fst
    exact List.Nodup.sublist hsub (List.nodup_enum_map_fst _)

/-- Witness for C8: the decision computed in the spec's concrete scenario has
no duplicates (the in-range part is instantiated inside the same
application). -/
theorem c8_decision_in_range_and_nodup_witness :
    (layerDecision (3/10) 100 [0, 0, 0, 0, 0, 80, 10, 0]).Nodup :=
  (c8_decision_in_range_and_nodup kM₁ 8 [([(kM₁, [5, 6])], 10),
    ([(kM₁, [])], 20), ([(kM₁, [5])], 70)] (3/10) 100
    [0, 0, 0, 0, 0, 80, 10, 0] (by decide)).2

/-- C3: if the results list is empty, or the failures list is non-empty and
the strategy is configured not to accept failures, `aggregate_fit` returns
`(None, {})` and leaves the strategy state — in particular
`self.central_parameters` — untouched, so the global parameters after the
round are identical by value to those before it. -/
theorem c3_no_results_or_failures_noop (s : Strategy) (serverRound : ℕ)
    (results : List FitRes) (failures : List Unit)
    (h : results = [] ∨ (s.acceptFailures = false ∧ failures ≠ [])) :
    aggregate_fit s serverRound results failures = (s, .ok none [] false) := by
  rcases h with h | h
  · subst h
    simp [aggregate_fit]
  · by_cases hr : results = []
    · subst hr
      simp [aggregate_fit]
    · simp [aggregate_fit, hr, h.1, h.2]

/-- Witness for C3: a round with no results is a no-op on the concrete
strategy. -/
theorem c3_no_results_or_failures_noop_witness :
    aggregate_fit s₁ 3 [] [] = (s₁, .ok none [] false) :=
  c3_no_results_or_failures_noop s₁ 3 [] [] (Or.inl rfl)

/-! ### C4: out-of-range proposal indices -/

/-- A proposal with every channel index outside `[0, n)` removed from every
layer entry. -/
def restrictProposal (n : ℕ) (m : Proposal) : Proposal :=
  m.map (fun kv => (kv.1, kv.2.filter (fun z => decide (0 ≤ z ∧ z < (n : ℤ)))))

theorem dictLookup_restrict (key : Str) (n : ℕ) (m : Proposal) :
    dictLookup key (restrictProposal n m) =
      (dictLookup key m).map
        (fun ids => ids.filter (fun z => decide (0 ≤ z ∧ z < (n : ℤ)))) := by
  induction m with
  | nil => rfl
  | cons kv m ih =>
      by_cases hk : kv.1 = key
      · simp [restrictProposal, dictLookup, hk]
      · simp only [restrictProposal, List.map_cons] at ih ⊢
        rw [dictLookup, dictLookup]
        simp only [hk, if_false]
        exact ih

theorem talliesOf_congr_mem (key : Str) {cs cs' : List (Proposal × ℕ)}
    {l : List ℕ} (h : ∀ i ∈ l, collectVotes key i cs = collectVotes key i cs') :
    talliesOf key cs l = talliesOf key cs' l := by
  induction l with
  | nil => rfl
  | cons i l ih =>
      rw [talliesOf, talliesOf, h i (List.mem_cons_self _ _),
        ih (fun j hj => h j (List.mem_cons_of_mem _ hj))]

theorem collectVotes_restrict (key : Str) (n : ℕ) (i : ℕ) (hi : i < n)
    (cs : List (Proposal × ℕ)) :
    collectVotes key i (cs.map (fun c => (restrictProposal n c.1, c.2))) =
      collectVotes key i cs := by
  induction cs with
  | nil => rfl
  | cons c cs ih =>
      cases h : dictLookup key c.1 with
      | none => simp [collectVotes, dictLookup_restrict, h]
      | some ids =>
          have hmemiff :
              ((i : ℤ) ∈ ids.filter (fun z => decide (0 ≤ z ∧ z < (n : ℤ)))) ↔
                ((i : ℤ) ∈ ids) := by
            rw [List.mem_filter]
            constructor
            · rintro ⟨h1, -⟩
              exact h1
            · intro h1
              refine ⟨h1, ?_⟩
              have : (0 : ℤ) ≤ (i : ℤ) ∧ (i : ℤ) < (n : ℤ) :=
                ⟨Int.ofNat_nonneg i, by exact_mod_cast hi⟩
              simpa using this
          simp [collectVotes, dictLookup_restrict, h, ih, hmemiff, hi]

/-- C4 (amended): a client's out-of-range channel indices are silently
ignored by the tally: restricting every proposal to the in-range indices
`[0, n)` changes no layer tally (and therefore no decision), and the
out-of-range indices never cause the layer's aggregation to be rejected —
there is no data-integrity error.  (The claim as stated — that an
out-of-range index makes the layer's aggregation fail fast — is refuted by
`c4_out_of_range_counterexample`.) -/
theorem c4_out_of_range_silently_dropped (key : Str) (n : ℕ)
    (clients : List (Proposal × ℕ)) :
    layerTallies key n (clients.map (fun c => (restrictProposal n c.1, c.2))) =
      layerTallies key n clients :=
  talliesOf_congr_mem key
    (fun i hi => collectVotes_restrict key n i (List.mem_range.mp hi) clients)

/-- Counterexample to C4 as stated: one client proposes channel 5 for a
layer holding only 3 channels.  The aggregation is not rejected (it returns
a decision, not an error), and its result is identical to the run in which
the out-of-range index was deleted from the proposal — the index is
silently dropped. -/
theorem c4_out_of_range_counterexample :
    serverPruneIdsOf [kW₁] [[1, 2, 3]] [([(kM₁, [5])], 10)] (3/10) 10 =
        some [[]] ∧
      serverPruneIdsOf [kW₁] [[1, 2, 3]] [([(kM₁, [5])], 10)] (3/10) 10 =
        serverPruneIdsOf [kW₁] [[1, 2, 3]] [([(kM₁, [])], 10)] (3/10) 10 := by
  constructor
  · norm_num +decide [serverPruneIdsOf, pruneIdsLoop, layerTallies, talliesOf,
      collectVotes, dictLookup, layerDecision, metricKeyOf, splitOnDot,
      isConvKey, penultimate, List.enum, List.enumFrom, List.filter,
      List.range, List.range.loop, kW₁, kM₁]
  · norm_num +decide [serverPruneIdsOf, pruneIdsLoop, layerTallies, talliesOf,
      collectVotes, dictLookup, layerDecision, metricKeyOf, splitOnDot,
      isConvKey, penultimate, List.enum, List.enumFrom, List.filter,
      List.range, List.range.loop, kW₁, kM₁]

/-! ### C5: malformed or missing proposal data -/

/-- A participating client whose result lacks the `prune_indices` metric. -/
def resBad : FitRes := ⟨⟨[[0]]⟩, 5, none⟩

/-- Counterexample to C5 as stated: with one well-formed client and one
client whose result lacks `prune_indices`, `aggregate_fit` raises `KeyError`
in the `client_metrics` comprehension — the round's aggregation does not
complete for the remaining client, it produces no result at all. -/
theorem c5_missing_proposal_counterexample :
    (aggregate_fit s₁ 1 [resA, resBad] []).2 = .error := by
  norm_num +decide [aggregate_fit, roundPruneIds, extractMetrics, s₁,
    params₁, tensor₁, resA, resBad, kW₁, kM₁]

theorem collectVotes_none_of_missing (key : Str) (i : ℕ)
    {clients : List (Proposal × ℕ)}
    (hc : ∃ c ∈ clients, dictLookup key c.1 = none) :
    collectVotes key i clients = none := by
  rw [collectVotes_eq, if_neg]
  intro H
  rcases hc with ⟨c, hmem, hnone⟩
  have hcl := H c hmem
  rw [hnone] at hcl
  simp at hcl

theorem layerTallies_none_of_missing (key : Str) {n : ℕ}
    {clients : List (Proposal × ℕ)} (hn : 0 < n)
    (hc : ∃ c ∈ clients, dictLookup key c.1 = none) :
    layerTallies key n clients = none := by
  obtain ⟨n', rfl⟩ : ∃ n', n = n' + 1 := ⟨n - 1, by omega⟩
  rw [layerTallies, List.range_succ_eq_map, talliesOf,
    collectVotes_none_of_missing key 0 hc]

theorem pruneIdsLoop_none_of_bad_layer (P : NDArrays)
    (clients : List (Proposal × ℕ)) (frac : ℚ) (tot : ℕ) :
    ∀ (keys : List Str) (start j : ℕ) (key : Str) (tensor : Tensor),
      keys[j]? = some key →
      (∃ comp, penultimate (splitOnDot key) = some comp ∧ isConvKey comp = true) →
      P[start + j]? = some tensor →
      layerTallies (metricKeyOf key) tensor.length clients = none →
      pruneIdsLoop P clients frac tot start keys = none := by
  intro keys
  induction keys with
  | nil =>
      intro start j key tensor hkey
      simp at hkey
  | cons k rest ih =>
      intro start j key tensor hkey hconv htens htal
      cases j with
      | zero =>
          rw [List.getElem?_cons_zero, Option.some.injEq] at hkey
          subst hkey
          rcases hconv with ⟨comp, hpen, hcv⟩
          rw [Nat.add_zero] at htens
          simp [pruneIdsLoop, hpen, hcv, htens, htal]
      | succ j' =>
          rw [List.getElem?_cons_succ] at hkey
          have htens' : P[(start + 1) + j']? = some tensor := by
            rw [show (start + 1) + j' = start + (j' + 1) by omega]
            exact htens
          have hrec := ih (start + 1) j' key tensor hkey hconv htens' htal
          cases hpen : penultimate (splitOnDot k) with
          | none => simp [pruneIdsLoop, hpen]
          | some comp2 =>
              by_cases hcv2 : isConvKey comp2
              · cases hP : P[start]? with
                | none => simp [pruneIdsLoop, hpen, hcv2, hP]
                | some t2 =>
                    cases htl2 : layerTallies (metricKeyOf k) t2.length clients with
                    | none => simp [pruneIdsLoop, hpen, hcv2, hP, htl2]
                    | some tl => simp [pruneIdsLoop, hpen, hcv2, hP, htl2, hrec]
              · simp [pruneIdsLoop, hpen, hcv2, hrec]

/-- C5 (amended): a participating client's malformed or missing proposal
data is fatal to the round, not a per-client error.  Both malformedness
modes abort the round with an uncaught `KeyError`: the client's result lacks
the `prune_indices` metric altogether (left disjunct, the comprehension at
the top of `aggregate_fit` raises), or some client's proposal mapping lacks
the entry for a prunable layer of the server net — a key whose second-to-last
dotted component matches `^conv[1-2]+$`, with its parameter tensor holding at
least one channel (right disjunct, the `client[key]` lookup inside the tally
loop raises).  Either way `aggregate_fit` produces no aggregation for the
remaining clients.  (The claim as stated is refuted by
`c5_missing_proposal_counterexample`.) -/
theorem c5_missing_proposal_fatal (s : Strategy) (serverRound : ℕ)
    (results : List FitRes) (failures : List Unit)
    (hne : results ≠ [])
    (hacc : ¬(s.acceptFailures = false ∧ failures ≠ []))
    (hbad : (∃ res ∈ results, res.pruneIndices = none) ∨
      (∃ clients, extractMetrics results = some clients ∧
        ∃ (j : ℕ) (key : Str) (tensor : Tensor), s.serverNet[j]? = some key ∧
          (∃ comp, penultimate (splitOnDot key) = some comp ∧
            isConvKey comp = true) ∧
          (parameters_to_ndarrays s.centralParameters)[j]? = some tensor ∧
          0 < tensor.length ∧
          ∃ c ∈ clients, dictLookup (metricKeyOf key) c.1 = none)) :
    aggregate_fit s serverRound results failures = (s, .error) := by
  have hround : roundPruneIds s results = none := by
    rcases hbad with hbad | ⟨clients, hext, j, key, tensor, hkey, hconv, htens, hn, hc⟩
    · have hext : extractMetrics results = none := by
        rw [extractMetrics_eq, if_neg]
        intro H
        rcases hbad with ⟨res, hmem, hnone⟩
        have hres := H res hmem
        rw [hnone] at hres
        simp at hres
      simp [roundPruneIds, hext]
    · have htal : layerTallies (metricKeyOf key) tensor.length clients = none :=
        layerTallies_none_of_missing (metricKeyOf key) hn hc
      have htens0 : (parameters_to_ndarrays s.centralParameters)[0 + j]? =
          some tensor := by
        rw [Nat.zero_add]
        exact htens
      have hloop := pruneIdsLoop_none_of_bad_layer
        (parameters_to_ndarrays s.centralParameters) clients s.aggregateFrac
        (totExamplesOf results) s.serverNet 0 j key tensor hkey hconv htens0 htal
      simp [roundPruneIds, hext, serverPruneIdsOf, hloop]
  simp [aggregate_fit, hne, hacc, hround]

/-- A participating client whose proposal mapping is an empty dictionary,
so it lacks the entry for every prunable layer. -/
def resM : FitRes := ⟨⟨[[0]]⟩, 7, some []⟩

/-- Witness for the amended C5, exercising both malformedness modes: a
client without the `prune_indices` metric aborts the round, and so does a
client whose proposal mapping lacks the prunable layer's entry. -/
theorem c5_missing_proposal_fatal_witness :
    aggregate_fit s₁ 2 [resBad] [] = (s₁, .error) ∧
      aggregate_fit s₁ 2 [resA, resM] [] = (s₁, .error) := by
  constructor
  · exact c5_missing_proposal_fatal s₁ 2 [resBad] [] (by decide) (by decide)
      (Or.inl (by decide))
  · refine c5_missing_proposal_fatal s₁ 2 [resA, resM] [] (by decide) (by decide)
      (Or.inr ⟨[([(kM₁, [5, 6])], 10), ([], 7)], by decide, 0, kW₁, tensor₁,
        by decide, ⟨"conv1".toList, by decide, by decide⟩, rfl, by decide,
        by decide⟩)

/-! ### C1: the returned parameters are not the pruned ones -/

/-- C1 (documents the code bug): in the spec's concrete scenario the round's
prune decision is non-empty (`[[5]]`, first conjunct), yet `aggregate_fit`
hands back exactly the deserialized pre-aggregation central parameters
(second conjunct, the source's `return server_parameters` marked
`To be changed`), even though the pruned parameter set demanded by the claim
differs from them (third conjunct: removing channel 5 shortens the tensor).
So the returned parameters are not the result of applying the round's prune
decision. -/
theorem c1_returns_unpruned_parameters :
    roundPruneIds s₁ results₁ = some [[5]] ∧
      (aggregate_fit s₁ 2 results₁ []).2 =
        .ok (some (parameters_to_ndarrays s₁.centralParameters)) [] false ∧
      pruneTensor [5] tensor₁ ≠ tensor₁ := by
  refine ⟨?_, ?_, ?_⟩
  · norm_num +decide [roundPruneIds, serverPruneIdsOf, pruneIdsLoop,
      layerTallies, talliesOf, collectVotes, dictLookup, layerDecision,
      metricKeyOf, splitOnDot, isConvKey, penultimate, extractMetrics,
      totExamplesOf, parameters_to_ndarrays, List.enum, List.enumFrom,
      List.filter, List.range, List.range.loop, s₁, params₁, tensor₁,
      results₁, resA, resB, resC, kW₁, kM₁]
  · norm_num +decide [aggregate_fit, roundPruneIds, serverPruneIdsOf,
      pruneIdsLoop, layerTallies, talliesOf, collectVotes, dictLookup,
      layerDecision, metricKeyOf, splitOnDot, isConvKey, penultimate,
      extractMetrics, totExamplesOf, parameters_to_ndarrays, List.enum,
      List.enumFrom, List.filter, List.range, List.range.loop, s₁, params₁,
      tensor₁, results₁, resA, resB, resC, kW₁, kM₁]
  · intro hEq
    have hlen := congrArg List.length hEq
    norm_num +decide [pruneTensor, tensor₁, List.enum, List.enumFrom,
      List.filter] at hlen

/-! ### C10: the returned parameters are the ones configure_fit stored -/

theorem aggregate_fit_ok_some_params {s : Strategy} {r : ℕ}
    {results : List FitRes} {failures : List Unit} {out : NDArrays}
    {m : Metrics} {w : Bool}
    (h : (aggregate_fit s r results failures).2 = .ok (some out) m w) :
    out = parameters_to_ndarrays s.centralParameters := by
  unfold aggregate_fit at h
  by_cases h1 : results = []
  · rw [if_pos h1] at h
    simp at h
  · rw [if_neg h1] at h
    by_cases h2 : s.acceptFailures = false ∧ failures ≠ []
    · rw [if_pos h2] at h
      simp at h
    · rw [if_neg h2] at h
      cases hi : roundPruneIds s results with
      | none =>
          rw [hi] at h
          simp at h
      | some ids =>
          rw [hi] at h
          cases hf : s.fitMetricsAggregationFn with
          | some fn =>
              rw [hf] at h
              simp only [AggOutcome.ok.injEq, Option.some.injEq] at h
              exact h.1.symm
          | none =>
              rw [hf] at h
              simp only [AggOutcome.ok.injEq, Option.some.injEq] at h
              exact h.1.symm

/-- C10 (implicit frame effect): whenever `aggregate_fit` aggregates — it
returns `.ok` with an actual parameter set — that parameter set is exactly
the deserialization of the parameters most recently stored by
`configure_fit` (the parameters broadcast at round start).  The returned
values depend only on the stored parameters, never on the results or the
prune decision computed in the same call. -/
theorem c10_returns_configured_parameters (s : Strategy) (rc ra : ℕ)
    (p : Parameters) (results : List FitRes) (failures : List Unit)
    (out : NDArrays) (m : Metrics) (w : Bool)
    (h : (aggregate_fit (configure_fit s rc p).1 ra results failures).2 =
      .ok (some out) m w) :
    out = parameters_to_ndarrays p :=
  aggregate_fit_ok_some_params h

/-- Witness for C10: configuring with `params₁` and aggregating the concrete
results returns exactly `params₁`'s tensors, although the strategy started
from different central parameters. -/
theorem c10_returns_configured_parameters_witness :
    [tensor₁] = parameters_to_ndarrays params₁ :=
  c10_returns_configured_parameters
    { s₁ with centralParameters := ⟨[[9, 9, 9, 9, 9, 9, 9, 9]]⟩ } 1 2 params₁
    results₁ [] [tensor₁] [] false
    (by norm_num +decide [aggregate_fit, configure_fit, roundPruneIds,
      serverPruneIdsOf, pruneIdsLoop, layerTallies, talliesOf, collectVotes,
      dictLookup, layerDecision, metricKeyOf, splitOnDot, isConvKey,
      penultimate, extractMetrics, totExamplesOf, parameters_to_ndarrays,
      List.enum, List.enumFrom, List.filter, List.range, List.range.loop,
      s₁, params₁, tensor₁, results₁, resA, resB, resC, kW₁, kM₁])

/-! ### C9: the missing-aggregation-function warning -/

/-- Whether the call logged the `No fit_metrics_aggregation_fn provided`
warning. -/
def warnedFlag : AggOutcome → Bool
  | .error => false
  | .ok _ _ w => w

theorem warnedFlag_aggregate_fit (s : Strategy)
    (hfn : s.fitMetricsAggregationFn = none) (r : ℕ) (results : List FitRes)
    (failures : List Unit) :
    warnedFlag (aggregate_fit s r results failures).2 =
      (decide (results ≠ []) &&
        decide (¬(s.acceptFailures = false ∧ failures ≠ [])) &&
        (roundPruneIds s results).isSome && (r == 1)) := by
  unfold aggregate_fit
  by_cases h1 : results = []
  · rw [if_pos h1]
    simp [warnedFlag, h1]
  · rw [if_neg h1]
    by_cases h2 : s.acceptFailures = false ∧ failures ≠ []
    · rw [if_pos h2]
      simp [warnedFlag, h1, h2]
    · rw [if_neg h2]
      cases hi : roundPruneIds s results with
      | none => simp [warnedFlag, h1, h2, hi]
      | some ids => simp [warnedFlag, h1, h2, hi, hfn]

theorem length_le_one_of_nodup_const {l : List ℕ} (hn : l.Nodup)
    (h1 : ∀ x ∈ l, x = 1) : l.length ≤ 1 := by
  cases l with
  | nil => simp
  | cons x t =>
      cases t with
      | nil => simp
      | cons y t' =>
          exfalso
          have hx := h1 x (List.mem_cons_self _ _)
          have hy := h1 y (List.mem_cons_of_mem _ (List.mem_cons_self _ _))
          have hne : x ∉ y :: t' := (List.nodup_cons.mp hn).1
          rw [hx, hy] at hne
          exact hne (List.mem_cons_self _ _)

/-- C9: when no custom metric-aggregation function is supplied, metrics
aggregation is skipped — every normal return carries empty metrics (first
conjunct) — and the missing-function warning is emitted only in round 1
(second conjunct), hence across any sequence of calls with distinct round
numbers among which round 1 aggregates, it is emitted exactly once, not once
per round (third conjunct). -/
theorem c9_warning_logged_once (s : Strategy)
    (hfn : s.fitMetricsAggregationFn = none) :
    (∀ r results failures p m w,
        (aggregate_fit s r results failures).2 = .ok p m w → m = []) ∧
      (∀ r results failures,
        warnedFlag (aggregate_fit s r results failures).2 = true → r = 1) ∧
      (∀ calls : List (ℕ × List FitRes × List Unit),
        (calls.map (·.1)).Nodup →
        ∀ results failures ids, (1, results, failures) ∈ calls →
          results ≠ [] → ¬(s.acceptFailures = false ∧ failures ≠ []) →
          roundPruneIds s results = some ids →
          (calls.filter
            (fun c => warnedFlag (aggregate_fit s c.1 c.2.1 c.2.2).2)).length
            = 1) := by
  have hwarn : ∀ r results failures,
      warnedFlag (aggregate_fit s r results failures).2 = true → r = 1 := by
    intro r results failures h
    rw [warnedFlag_aggregate_fit s hfn] at h
    have hb := (Bool.and_eq_true _ _).mp h
    simpa using hb.2
  refine ⟨?_, hwarn, ?_⟩
  · intro r results failures p m w h
    unfold aggregate_fit at h
    by_cases h1 : results = []
    · rw [if_pos h1] at h
      simp only [AggOutcome.ok.injEq] at h
      exact h.2.1.symm
    · rw [if_neg h1] at h
      by_cases h2 : s.acceptFailures = false ∧ failures ≠ []
      · rw [if_pos h2] at h
        simp only [AggOutcome.ok.injEq] at h
        exact h.2.1.symm
      · rw [if_neg h2] at h
        cases hi : roundPruneIds s results with
        | none =>
            rw [hi] at h
            simp at h
        | some ids =>
            rw [hi, hfn] at h
            simp only [AggOutcome.ok.injEq] at h
            exact h.2.1.symm
  · intro calls hnodup results failures ids hmem hne hacc hids
    have hin : warnedFlag (aggregate_fit s 1 results failures).2 = true := by
      rw [warnedFlag_aggregate_fit s hfn]
      simp [hne, hacc, hids]
    have hr1 : ∀ c ∈ calls.filter
        (fun c => warnedFlag (aggregate_fit s c.1 c.2.1 c.2.2).2), c.1 = 1 := by
      intro c hc
      have := List.mem_filter.mp hc
      exact hwarn c.1 c.2.1 c.2.2 this.2
    have hsub : (calls.filter
        (fun c => warnedFlag (aggregate_fit s c.1 c.2.1 c.2.2).2)).Sublist calls :=
      List.filter_sublist _
    have hnodup' : ((calls.filter
        (fun c => warnedFlag (aggregate_fit s c.1 c.2.1 c.2.2).2)).map
          (·.1)).Nodup :=
      List.Nodup.sublist (hsub.map _) hnodup
    have hall1 : ∀ x ∈ (calls.filter
        (fun c => warnedFlag (aggregate_fit s c.1 c.2.1 c.2.2).2)).map (·.1),
        x = 1 := by
      intro x hx
      rcases List.mem_map.mp hx with ⟨c, hc, rfl⟩
      exact hr1 c hc
    have hle := length_le_one_of_nodup_const hnodup' hall1
    rw [List.length_map] at hle
    have hmemf : (1, results, failures) ∈ calls.filter
        (fun c => warnedFlag (aggregate_fit s c.1 c.2.1 c.2.2).2) :=
      List.mem_filter.mpr ⟨hmem, hin⟩
    have hpos : 0 < (calls.filter
        (fun c => warnedFlag (aggregate_fit s c.1 c.2.1 c.2.2).2)).length :=
      List.length_pos.mpr (List.ne_nil_of_mem hmemf)
    omega

/-- Witness for C9: over two rounds (1 and 2) with the concrete results, the
warning fires in exactly one call. -/
theorem c9_warning_logged_once_witness :
    (([(1, results₁, ([] : List Unit)), (2, results₁, [])]).filter
      (fun c => warnedFlag (aggregate_fit s₁ c.1 c.2.1 c.2.2).2)).length = 1 :=
  (c9_warning_logged_once s₁ rfl).2.2
    [(1, results₁, []), (2, results₁, [])] (by decide) results₁ [] [[5]]
    (by decide) (by decide) (by decide)
    (by norm_num +decide [roundPruneIds, serverPruneIdsOf, pruneIdsLoop,
      layerTallies, talliesOf, collectVotes, dictLookup, layerDecision,
      metricKeyOf, splitOnDot, isConvKey, penultimate, extractMetrics,
      totExamplesOf, parameters_to_ndarrays, List.enum, List.enumFrom,
      List.filter, List.range, List.range.loop, s₁, params₁, tensor₁,
      results₁, resA, resB, resC, kW₁, kM₁])

end DynFedPrune
